import Mathlib

/-
Verification of the Lequel trigram-based language identifier
(src/Lequel.cpp, src/Lequel.h, src/Text.cpp, src/Text.h).

Modelling conventions:
- Machine bytes and UTF-16 code units are modelled as natural numbers;
  the uint64 packed trigram keys are natural numbers with the casts made
  explicit by reductions modulo 2 to the 32 or 64.
- The float weights of a TrigramProfile are modelled as real numbers
  (exact arithmetic); integer counts accumulated by the extractor are
  modelled as natural numbers, which the float type represents exactly in
  the realistic range.  Claims phrased with a floating-point tolerance are
  settled against the exact real value.
- The library routine wstring_convert.from_bytes (codecvt_utf8_utf16) is
  modelled as an executable UTF-8 to UTF-16 decoder returning none on a
  malformed byte sequence; none models the std range_error exception.
  A caller that catches the exception inspects the Option; a caller that
  does not (getTextFromString in Text.cpp) propagates none to its result.
-/

/-- Text is an ordered sequence of lines; each line is the byte sequence
handed to extractTrigramsFromLine (a std string in the source). -/
abbrev Text := List (List ℕ)

/-- TrigramProfile with the raw integer counts produced by the extractor
(the float values hold exact small integers at this stage).  An
association list models the unordered map: keys are unique by
construction, entry order is irrelevant to every claim. -/
abbrev CountProfile := List (ℕ × ℕ)

/-- TrigramProfile with real-valued weights, as consumed and produced by
normalizeTrigramProfile and getCosineSimilarity (float weights modelled
as reals). -/
abbrev RProfile := List (ℕ × ℝ)

/-- Conversion of the raw count profile to the real-weighted view of the
same unordered map (the C++ code has a single map type holding floats). -/
def toRProfile (p : CountProfile) : RProfile :=
  p.map (fun kv => (kv.1, (kv.2 : ℝ)))

/-- LanguageProfile structure from Lequel.h: a language code and its
trigram profile. -/
structure LanguageProfile where
  languageCode : String
  trigramProfile : RProfile

/-- Lequel.cpp lines 218-223: pack three wide characters into a single
64-bit integer.  A wchar value is below 2 to the 32, which the reduction
modulo 2 to the 32 makes explicit for the uint64 cast; the shifted fields
then stay below 2 to the 64, so the uint64 arithmetic is exact and no
outer reduction is needed. -/
def wcharTrigramToInt (a b c : ℕ) : ℕ :=
  (((a % 2 ^ 32) <<< 32) ||| ((b % 2 ^ 32) <<< 16)) ||| (c % 2 ^ 32)

/-- Lequel.cpp lines 225-231: unpack a trigram key into its 3 UTF-16
characters (a wstring of length 3 in the source). -/
def intToWcharTrigram (trigram : ℕ) : List ℕ :=
  [(trigram >>> 32) &&& 0xFFFF, (trigram >>> 16) &&& 0xFFFF, trigram &&& 0xFFFF]

/-- Lequel.cpp lines 67-69: the byte-level fallback packs three bytes of
the line as if they were wide characters; static_cast to unsigned char is
the reduction modulo 256. -/
def packBytes (x y z : ℕ) : ℕ :=
  (((x % 256) <<< 32) ||| ((y % 256) <<< 16)) ||| (z % 256)

/-- Lequel.cpp lines 53-56: a window is counted only when the packed key
and each of its three 16-bit fields are nonzero. -/
def windowPass (trigram : ℕ) : Bool :=
  trigram != 0 &&
    (trigram &&& 0xFFFF) != 0 &&
    ((trigram >>> 16) &&& 0xFFFF) != 0 &&
    ((trigram >>> 32) &&& 0xFFFF) != 0

/-- Fuel-indexed UTF-8 to UTF-16 decoder modelling
wstring_convert.from_bytes with codecvt_utf8_utf16: lead byte patterns
select 1 to 4 continuation bytes, codepoints above 0xFFFF become a
surrogate pair, and any malformed sequence yields none (the exception).
The fuel argument only bounds recursion depth; it is instantiated with
the length of the byte list, which the decoder never exceeds. -/
def utf16Units : ℕ → List ℕ → Option (List ℕ)
  | _, [] => some []
  | 0, _ :: _ => none
  | fuel + 1, b :: rest =>
    if b < 128 then
      Option.map (fun us => b :: us) (utf16Units fuel rest)
    else if b < 194 then none
    else if b < 224 then
      match rest with
      | b1 :: rest2 =>
        if 128 ≤ b1 ∧ b1 < 192 then
          Option.map (fun us => ((b % 32) * 64 + b1 % 64) :: us) (utf16Units fuel rest2)
        else none
      | [] => none
    else if b < 240 then
      match rest with
      | b1 :: b2 :: rest3 =>
        if (128 ≤ b1 ∧ b1 < 192) ∧ (128 ≤ b2 ∧ b2 < 192) then
          Option.map (fun us => ((b % 16) * 4096 + (b1 % 64) * 64 + b2 % 64) :: us)
            (utf16Units fuel rest3)
        else none
      | _ => none
    else if b < 245 then
      match rest with
      | b1 :: b2 :: b3 :: rest4 =>
        if (128 ≤ b1 ∧ b1 < 192) ∧ (128 ≤ b2 ∧ b2 < 192) ∧ (128 ≤ b3 ∧ b3 < 192) then
          if 65536 ≤ (b % 8) * 262144 + (b1 % 64) * 4096 + (b2 % 64) * 64 + b3 % 64 ∧
              (b % 8) * 262144 + (b1 % 64) * 4096 + (b2 % 64) * 64 + b3 % 64 ≤ 1114111 then
            Option.map
              (fun us =>
                (55296 +
                    ((b % 8) * 262144 + (b1 % 64) * 4096 + (b2 % 64) * 64 + b3 % 64 - 65536) /
                      1024) ::
                  (56320 +
                      ((b % 8) * 262144 + (b1 % 64) * 4096 + (b2 % 64) * 64 + b3 % 64 - 65536) %
                        1024) ::
                  us)
              (utf16Units fuel rest4)
          else none
        else none
      | _ => none
    else none

/-- Decoding of a byte sequence, modelling converter.from_bytes. -/
def fromBytes (bytes : List ℕ) : Option (List ℕ) :=
  utf16Units bytes.length bytes

/-- Lequel.cpp lines 35-37: pop trailing carriage-return and line-feed
characters from the back of the line. -/
def stripLineEnding (line : List ℕ) : List ℕ :=
  (line.reverse.dropWhile (fun c => c == 13 || c == 10)).reverse

/-- Increment of trigrams[key] on the unordered map (value-initialised to
zero on first access, then incremented): update the unique entry holding
the key, or insert the key with count 1. -/
def bump : CountProfile → ℕ → CountProfile
  | [], key => [(key, 1)]
  | kv :: rest, key =>
    if kv.1 = key then (kv.1, kv.2 + 1) :: rest else kv :: bump rest key

/-- Lequel.cpp lines 29-77: extract the trigrams of one line into the
profile.  The try branch decodes the cleaned line and slides a window of
3 UTF-16 units; the catch branch (decode failure) falls back to
byte-by-byte packing. -/
def extractTrigramsFromLine (line : List ℕ) (trigrams : CountProfile) : CountProfile :=
  if line.length < 3 then trigrams
  else
    let cleanLine := stripLineEnding line
    if cleanLine.length < 3 then trigrams
    else
      match fromBytes cleanLine with
      | some wline =>
        if wline.length < 3 then trigrams
        else
          (List.range (wline.length - 2)).foldl
            (fun tg i =>
              let trigram :=
                wcharTrigramToInt (wline.getD i 0) (wline.getD (i + 1) 0) (wline.getD (i + 2) 0)
              if windowPass trigram then bump tg trigram else tg)
            trigrams
      | none =>
        if 3 ≤ cleanLine.length then
          (List.range (cleanLine.length - 2)).foldl
            (fun tg i =>
              let trigram :=
                packBytes (cleanLine.getD i 0) (cleanLine.getD (i + 1) 0) (cleanLine.getD (i + 2) 0)
              if trigram != 0 then bump tg trigram else tg)
            trigrams
        else trigrams

/-- Lequel.cpp lines 98-116: build the trigram profile of a text by
feeding every line of length at least 3 to the extractor (the reserve
call and the unused totalChars counter have no observable effect). -/
def buildTrigramProfile (text : Text) : CountProfile :=
  if text.isEmpty then []
  else
    text.foldl
      (fun trigrams line =>
        if 3 ≤ line.length then extractTrigramsFromLine line trigrams else trigrams)
      []

/-- Lequel.cpp lines 84-90: Euclidean norm of a profile, the square root
of the accumulated sum of squared weights. -/
noncomputable def calculateNorm (profile : RProfile) : ℝ :=
  Real.sqrt (profile.foldl (fun normSq kv => normSq + kv.2 * kv.2) 0)

/-- Lequel.cpp lines 122-134: normalize the profile in place; an empty
profile is returned unchanged, and the weights are scaled by the inverse
norm only when the norm is strictly positive. -/
noncomputable def normalizeTrigramProfile (trigramProfile : RProfile) : RProfile :=
  if trigramProfile.isEmpty then trigramProfile
  else
    let norm := calculateNorm trigramProfile
    if 0 < norm then
      let invNorm := 1 / norm
      trigramProfile.map (fun kv => (kv.1, kv.2 * invNorm))
    else trigramProfile

/-- Lequel.cpp lines 142-160: sparse dot product; zero when either
profile is empty, otherwise the smaller profile is walked and each key
looked up in the larger one. -/
noncomputable def getCosineSimilarity (textProfile languageProfile : RProfile) : ℝ :=
  if textProfile.isEmpty || languageProfile.isEmpty then 0
  else
    let smaller :=
      if textProfile.length < languageProfile.length then textProfile else languageProfile
    let larger :=
      if textProfile.length < languageProfile.length then languageProfile else textProfile
    smaller.foldl
      (fun dotProduct kv =>
        match larger.lookup kv.1 with
        | some v => dotProduct + kv.2 * v
        | none => dotProduct)
      0

/-- Lequel.cpp lines 190-200: the scoring loop, tracking the best
similarity (initialised to -1) and the code of the language that set it;
the update fires only on a strict improvement. -/
noncomputable def bestScan (f : LanguageProfile → ℝ) (languages : List LanguageProfile) :
    ℝ × Option String :=
  languages.foldl
    (fun acc langProfile =>
      if acc.1 < f langProfile then (f langProfile, some langProfile.languageCode) else acc)
    ((-1 : ℝ), (none : Option String))

/-- Lequel.cpp lines 168-215: identify the language of a text; empty
text, empty language collection and empty built profile short-circuit to
unknown, otherwise the best similarity is compared against the fixed
threshold 0.01 (the loop computing the unused totalTrigrams counter has
no observable effect and is omitted). -/
noncomputable def identifyLanguage (text : Text) (languages : List LanguageProfile) : String :=
  if text.isEmpty || languages.isEmpty then "unknown"
  else
    let textTrigrams := buildTrigramProfile text
    if textTrigrams.isEmpty then "unknown"
    else
      let ntp := normalizeTrigramProfile (toRProfile textTrigrams)
      let best := bestScan (fun langProfile => getCosineSimilarity ntp langProfile.trigramProfile)
        languages
      let similarityThreshold : ℝ := 1 / 100
      if similarityThreshold < best.1 ∧ best.2 ≠ none then best.2.getD ("unknown")
      else "unknown"

/-- Total number of window counts stored in a raw profile, summed over
all keys. -/
def totalCount (p : CountProfile) : ℕ :=
  (p.map (fun kv => kv.2)).sum

/-- Modelled from the spec: the language code of the first profile in
collection order whose similarity score (under the supplied scoring
function) equals the value M, used to state the first-max-wins contract
of the classifier. -/
noncomputable def firstAttaining (f : LanguageProfile → ℝ) (M : ℝ) :
    List LanguageProfile → Option String
  | [] => none
  | langProfile :: rest =>
    if f langProfile = M then some langProfile.languageCode else firstAttaining f M rest

/-- Text.cpp line 33: towlower under the default C locale lowercases the
ASCII range only. -/
def towlower (c : ℕ) : ℕ :=
  if 65 ≤ c ∧ c ≤ 90 then c + 32 else c

/-- Text.cpp lines 35-48: split the decoded wide string at every
line-feed, stripping a carriage-return that immediately precedes the
line-feed; the final segment is always appended.  The accumulator holds
the current segment in reverse. -/
def splitLinesAux : List ℕ → List ℕ → List (List ℕ)
  | [], cur => [cur.reverse]
  | c :: rest, cur =>
    if c = 10 then
      (if cur.head? = some 13 then cur.tail.reverse else cur.reverse) :: splitLinesAux rest []
    else splitLinesAux rest (c :: cur)

/-- Text.cpp lines 26-51: getTextFromString decodes the whole byte string
with from_bytes, lowercases it and splits it into lines.  The decode call
sits outside any try block, so a decode failure (none) propagates to the
caller instead of being recovered. -/
def getTextFromString (s : List ℕ) : Option (List (List ℕ)) :=
  Option.map (fun ws => splitLinesAux (ws.map towlower) []) (fromBytes s)

/-! Bit-level facts about the packed trigram keys. -/

lemma shiftLeft_lor_eq_add (x y k : ℕ) (hy : y < 2 ^ k) :
    (x <<< k) ||| y = x * 2 ^ k + y := by
  apply Nat.eq_of_testBit_eq
  intro i
  rw [Nat.testBit_lor, Nat.testBit_shiftLeft]
  rcases Nat.lt_or_ge i k with h | h
  · have h1 : decide (i ≥ k) = false := by simp [Nat.not_le.mpr h]
    have hmod : (x * 2 ^ k + y) % 2 ^ k = y := by
      rw [Nat.add_comm, Nat.add_mul_mod_self_right, Nat.mod_eq_of_lt hy]
    have h2 : y.testBit i = (x * 2 ^ k + y).testBit i := by
      conv_lhs => rw [← hmod]
      rw [Nat.testBit_mod_two_pow]
      simp [h]
    rw [h1, ← h2]
    simp
  · have hdiv : (x * 2 ^ k + y) >>> k = x := by
      rw [Nat.shiftRight_eq_div_pow, Nat.mul_comm, Nat.mul_add_div (Nat.pos_pow_of_pos k
        (by norm_num)), Nat.div_eq_of_lt hy, Nat.add_zero]
    have h2 : (x * 2 ^ k + y).testBit i = x.testBit (i - k) := by
      have h3 := Nat.testBit_shiftRight (i := k) (j := i - k) (x * 2 ^ k + y)
      rw [hdiv] at h3
      rw [h3]
      congr 1
      omega
    have h3 : y.testBit i = false :=
      Nat.testBit_eq_false_of_lt (lt_of_lt_of_le hy (Nat.pow_le_pow_right (by norm_num) h))
    simp [h, h2, h3]

lemma land_two_pow_sub_one_eq_mod (x k : ℕ) : x &&& (2 ^ k - 1) = x % 2 ^ k := by
  apply Nat.eq_of_testBit_eq
  intro i
  rw [Nat.testBit_land, Nat.testBit_two_pow_sub_one, Nat.testBit_mod_two_pow, Bool.and_comm]

lemma wcharTrigramToInt_eq_add (a b c : ℕ) (ha : a < 65536) (hb : b < 65536) (hc : c < 65536) :
    wcharTrigramToInt a b c = a * 2 ^ 32 + b * 2 ^ 16 + c := by
  unfold wcharTrigramToInt
  rw [Nat.mod_eq_of_lt (by omega : a < 2 ^ 32), Nat.mod_eq_of_lt (by omega : b < 2 ^ 32),
    Nat.mod_eq_of_lt (by omega : c < 2 ^ 32)]
  have h1 : b <<< 16 < 2 ^ 32 := by
    rw [Nat.shiftLeft_eq]
    omega
  rw [shiftLeft_lor_eq_add a (b <<< 16) 32 h1, Nat.shiftLeft_eq b 16]
  have h2 : a * 2 ^ 32 + b * 2 ^ 16 = (a * 2 ^ 16 + b) <<< 16 := by
    rw [Nat.shiftLeft_eq]
    ring
  rw [h2, shiftLeft_lor_eq_add _ c 16 (by omega), Nat.shiftLeft_eq]

lemma key_field_lo (a b c : ℕ) (hb : b < 65536) (hc : c < 65536) :
    (a * 2 ^ 32 + b * 2 ^ 16 + c) &&& 0xFFFF = c := by
  rw [show (0xFFFF : ℕ) = 2 ^ 16 - 1 by norm_num, land_two_pow_sub_one_eq_mod]
  omega

lemma key_field_mid (a b c : ℕ) (hb : b < 65536) (hc : c < 65536) :
    ((a * 2 ^ 32 + b * 2 ^ 16 + c) >>> 16) &&& 0xFFFF = b := by
  rw [show (0xFFFF : ℕ) = 2 ^ 16 - 1 by norm_num, land_two_pow_sub_one_eq_mod,
    Nat.shiftRight_eq_div_pow]
  omega

lemma key_field_hi (a b c : ℕ) (ha : a < 65536) (hb : b < 65536) (hc : c < 65536) :
    ((a * 2 ^ 32 + b * 2 ^ 16 + c) >>> 32) &&& 0xFFFF = a := by
  rw [show (0xFFFF : ℕ) = 2 ^ 16 - 1 by norm_num, land_two_pow_sub_one_eq_mod,
    Nat.shiftRight_eq_div_pow]
  omega

/-- C8: for every window of 3 characters whose code units lie below the
16-bit cap, unpacking the packed key reproduces the original characters
exactly. -/
theorem trigram_roundtrip (a b c : ℕ) (ha : a < 65536) (hb : b < 65536) (hc : c < 65536) :
    intToWcharTrigram (wcharTrigramToInt a b c) = [a, b, c] := by
  rw [wcharTrigramToInt_eq_add a b c ha hb hc]
  unfold intToWcharTrigram
  rw [key_field_lo a b c hb hc, key_field_mid a b c hb hc, key_field_hi a b c ha hb hc]

/-- Witness for C8 at the concrete window (97, 98, 99). -/
theorem trigram_roundtrip_witness :
    (97 : ℕ) < 65536 ∧ intToWcharTrigram (wcharTrigramToInt 97 98 99) = [97, 98, 99] :=
  ⟨by decide, trigram_roundtrip 97 98 99 (by decide) (by decide) (by decide)⟩

/-! Facts about normalization, with float arithmetic modelled as exact
real arithmetic. -/

lemma isEmpty_false_of_ne_nil {α : Type} {l : List α} (h : l ≠ []) : l.isEmpty = false := by
  cases l with
  | nil => exact absurd rfl h
  | cons x xs => rfl

lemma foldl_add_sq (l : RProfile) :
    ∀ c : ℝ, l.foldl (fun normSq kv => normSq + kv.2 * kv.2) c
      = c + (l.map (fun kv => kv.2 * kv.2)).sum := by
  induction l with
  | nil => intro c; simp
  | cons kv rest ih => intro c; simp [ih, add_assoc]

lemma calculateNorm_eq (p : RProfile) :
    calculateNorm p = Real.sqrt ((p.map (fun kv => kv.2 * kv.2)).sum) := by
  unfold calculateNorm
  rw [foldl_add_sq, zero_add]

lemma sumSq_nonneg (p : RProfile) : 0 ≤ (p.map (fun kv => kv.2 * kv.2)).sum := by
  apply List.sum_nonneg
  intro x hx
  rw [List.mem_map] at hx
  obtain ⟨kv, _, rfl⟩ := hx
  exact mul_self_nonneg _

lemma calculateNorm_nonneg (p : RProfile) : 0 ≤ calculateNorm p := by
  rw [calculateNorm_eq]
  exact Real.sqrt_nonneg _

lemma normalize_of_pos (p : RProfile) (hne : p ≠ []) (hpos : 0 < calculateNorm p) :
    normalizeTrigramProfile p = p.map (fun kv => (kv.1, kv.2 * (1 / calculateNorm p))) := by
  simp only [normalizeTrigramProfile, isEmpty_false_of_ne_nil hne]
  rw [if_neg (by simp), if_pos hpos]

lemma normalize_of_not_pos (p : RProfile) (h : ¬ 0 < calculateNorm p) :
    normalizeTrigramProfile p = p := by
  by_cases hp : p = []
  · subst hp
    rfl
  · simp only [normalizeTrigramProfile, isEmpty_false_of_ne_nil hp]
    rw [if_neg (by simp), if_neg h]

lemma norm_map_scale (p : RProfile) (t : ℝ) :
    calculateNorm (p.map (fun kv => (kv.1, kv.2 * t)))
      = Real.sqrt ((p.map (fun kv => kv.2 * kv.2)).sum * (t * t)) := by
  rw [calculateNorm_eq, List.map_map]
  congr 1
  have hfun : ((fun kv => kv.2 * kv.2) ∘ fun kv => (kv.1, kv.2 * t) : ℕ × ℝ → ℝ)
      = fun kv => (kv.2 * kv.2) * (t * t) := by
    funext kv
    simp [Function.comp]
    ring
  rw [hfun, List.sum_map_mul_right]

lemma norm_normalize (p : RProfile) (hne : p ≠ []) (h0 : calculateNorm p ≠ 0) :
    calculateNorm (normalizeTrigramProfile p) = 1 := by
  have hpos : 0 < calculateNorm p := lt_of_le_of_ne (calculateNorm_nonneg p) (Ne.symm h0)
  rw [normalize_of_pos p hne hpos, norm_map_scale]
  have hSnn : 0 ≤ (p.map (fun kv => kv.2 * kv.2)).sum := sumSq_nonneg p
  have hS : calculateNorm p = Real.sqrt ((p.map (fun kv => kv.2 * kv.2)).sum) :=
    calculateNorm_eq p
  have hSne : (p.map (fun kv => kv.2 * kv.2)).sum ≠ 0 := by
    intro h
    rw [hS, h, Real.sqrt_zero] at h0
    exact h0 rfl
  have hinv : (1 / calculateNorm p) * (1 / calculateNorm p)
      = 1 / (p.map (fun kv => kv.2 * kv.2)).sum := by
    rw [hS, div_mul_div_comm, one_mul, Real.mul_self_sqrt hSnn]
  rw [hinv, mul_one_div_cancel hSne, Real.sqrt_one]

/-- C2: a non-empty profile of nonzero norm has Euclidean norm 1 after
normalization (exactly, hence within the stated tolerance of 1e-5);
a profile of zero norm, and the empty profile, are left unchanged. -/
theorem normalize_unit_norm (p : RProfile) :
    (p ≠ [] → calculateNorm p ≠ 0 →
      |calculateNorm (normalizeTrigramProfile p) - 1| ≤ 1 / 100000) ∧
    (calculateNorm p = 0 → normalizeTrigramProfile p = p) ∧
    normalizeTrigramProfile ([] : RProfile) = [] := by
  refine ⟨fun hne h0 => ?_, fun h0 => ?_, rfl⟩
  · rw [norm_normalize p hne h0]
    norm_num
  · exact normalize_of_not_pos p (by rw [h0]; exact lt_irrefl 0)

/-- Witness for C2: a two-entry profile of norm 1 keeps unit norm, and a
zero-norm profile is unchanged. -/
theorem normalize_unit_norm_witness :
    |calculateNorm (normalizeTrigramProfile [(1, (1 : ℝ)), (2, 0)]) - 1| ≤ 1 / 100000 ∧
    normalizeTrigramProfile [(3, (0 : ℝ))] = [(3, 0)] := by
  have h1 : calculateNorm [(1, (1 : ℝ)), (2, 0)] = 1 := by
    rw [calculateNorm_eq]
    norm_num
  have h2 : calculateNorm [(3, (0 : ℝ))] = 0 := by
    rw [calculateNorm_eq]
    norm_num
  exact ⟨(normalize_unit_norm [(1, 1), (2, 0)]).1 (by simp) (by rw [h1]; norm_num),
    (normalize_unit_norm [(3, 0)]).2.1 h2⟩

/-- C3 counterexample: a single-entry profile whose lone weight is -2 is
normalized to weight -1 by the generic divide-by-norm computation, not to
the pinned value 1.0 the claim states; there is no single-entry shortcut
in the code. -/
theorem normalize_single_counterexample :
    normalizeTrigramProfile [(5, (-2 : ℝ))] = [(5, (-1 : ℝ))] ∧ ((-1 : ℝ) ≠ 1) := by
  constructor
  · have hn : calculateNorm [(5, (-2 : ℝ))] = 2 := by
      rw [calculateNorm_eq]
      norm_num
      rw [show (4 : ℝ) = 2 ^ 2 by norm_num, Real.sqrt_sq (by norm_num : (0 : ℝ) ≤ 2)]
    rw [normalize_of_pos _ (by simp) (by rw [hn]; norm_num), hn]
    norm_num
  · norm_num

/-- C3 amended: for a single-entry profile with strictly positive weight,
normalization yields weight exactly 1, through the generic
divide-by-norm path. -/
theorem normalize_single_entry_pos (k : ℕ) (w : ℝ) (hw : 0 < w) :
    normalizeTrigramProfile [(k, w)] = [(k, 1)] := by
  have hn : calculateNorm [(k, w)] = w := by
    rw [calculateNorm_eq]
    norm_num
    exact Real.sqrt_mul_self hw.le
  rw [normalize_of_pos _ (by simp) (by rw [hn]; exact hw), hn]
  simp [one_div, mul_inv_cancel₀ (ne_of_gt hw)]

/-- Witness for the amended C3 at weight 2. -/
theorem normalize_single_entry_pos_witness :
    (0 : ℝ) < 2 ∧ normalizeTrigramProfile [(7, (2 : ℝ))] = [(7, 1)] :=
  ⟨by norm_num, normalize_single_entry_pos 7 2 (by norm_num)⟩

/-- C7: normalization is idempotent, exactly in the real model. -/
theorem normalize_idempotent (p : RProfile) :
    normalizeTrigramProfile (normalizeTrigramProfile p) = normalizeTrigramProfile p := by
  by_cases hp : p = []
  · subst hp
    rfl
  by_cases h0 : calculateNorm p = 0
  · have h : normalizeTrigramProfile p = p :=
      normalize_of_not_pos p (by rw [h0]; exact lt_irrefl 0)
    simp only [h]
  · have hpos : 0 < calculateNorm p := lt_of_le_of_ne (calculateNorm_nonneg p) (Ne.symm h0)
    have hq1 : calculateNorm (normalizeTrigramProfile p) = 1 := norm_normalize p hp h0
    have hqne : normalizeTrigramProfile p ≠ [] := by
      rw [normalize_of_pos p hp hpos]
      simp [hp]
    rw [normalize_of_pos _ hqne (by rw [hq1]; norm_num), hq1]
    simp

/-- C10: normalization only rescales weights; the key list (and hence the
entry count) is unchanged. -/
theorem normalize_preserves_keys (p : RProfile) :
    (normalizeTrigramProfile p).map Prod.fst = p.map Prod.fst ∧
    (normalizeTrigramProfile p).length = p.length := by
  by_cases hp : p = []
  · subst hp
    exact ⟨rfl, rfl⟩
  by_cases hpos : 0 < calculateNorm p
  · rw [normalize_of_pos p hp hpos]
    constructor
    · rw [List.map_map]
      rfl
    · rw [List.length_map]
  · rw [normalize_of_not_pos p hpos]
    exact ⟨rfl, rfl⟩

/-! Facts about the decoder and the extraction loops. -/

set_option maxRecDepth 4000 in
lemma utf16Units_facts :
    ∀ fuel bytes units, utf16Units fuel bytes = some units →
      units.length ≤ bytes.length ∧ ∀ u ∈ units, u < 65536 := by
  intro fuel
  induction fuel with
  | zero =>
    intro bytes units h
    cases bytes with
    | nil =>
      simp only [utf16Units, Option.some.injEq] at h
      subst h
      simp
    | cons b rest =>
      simp only [utf16Units] at h
      exact Option.noConfusion h
  | succ fuel ih =>
    intro bytes units h
    rcases bytes with _ | ⟨b, _ | ⟨b1, _ | ⟨b2, _ | ⟨b3, rest⟩⟩⟩⟩
    · simp only [utf16Units, Option.some.injEq] at h
      subst h
      simp
    · simp only [utf16Units, Option.map_some'] at h
      split_ifs at h
      rw [Option.some.injEq] at h
      subst h
      refine ⟨by simp, ?_⟩
      intro u hu
      rcases List.mem_cons.mp hu with rfl | hu
      · omega
      · exact absurd hu (List.not_mem_nil u)
    · simp only [utf16Units, Option.map_some'] at h
      split_ifs at h
      · rw [Option.map_eq_some'] at h
        obtain ⟨us, hrec, rfl⟩ := h
        obtain ⟨hlen, hbound⟩ := ih _ _ hrec
        refine ⟨by simp only [List.length_cons, List.length_nil] at hlen ⊢; omega, ?_⟩
        intro u hu
        rcases List.mem_cons.mp hu with rfl | hu
        · omega
        · exact hbound u hu
      · rw [Option.some.injEq] at h
        subst h
        refine ⟨by simp, ?_⟩
        intro u hu
        rcases List.mem_cons.mp hu with rfl | hu
        · omega
        · exact absurd hu (List.not_mem_nil u)
    · simp only [utf16Units, Option.map_some'] at h
      split_ifs at h
      · rw [Option.map_eq_some'] at h
        obtain ⟨us, hrec, rfl⟩ := h
        obtain ⟨hlen, hbound⟩ := ih _ _ hrec
        refine ⟨by simp only [List.length_cons, List.length_nil] at hlen ⊢; omega, ?_⟩
        intro u hu
        rcases List.mem_cons.mp hu with rfl | hu
        · omega
        · exact hbound u hu
      · rw [Option.map_eq_some'] at h
        obtain ⟨us, hrec, rfl⟩ := h
        obtain ⟨hlen, hbound⟩ := ih _ _ hrec
        refine ⟨by simp only [List.length_cons, List.length_nil] at hlen ⊢; omega, ?_⟩
        intro u hu
        rcases List.mem_cons.mp hu with rfl | hu
        · omega
        · exact hbound u hu
      · rw [Option.some.injEq] at h
        subst h
        refine ⟨by simp, ?_⟩
        intro u hu
        rcases List.mem_cons.mp hu with rfl | hu
        · omega
        · exact absurd hu (List.not_mem_nil u)
    · simp only [utf16Units, Option.map_some'] at h
      split_ifs at h
      · rw [Option.map_eq_some'] at h
        obtain ⟨us, hrec, rfl⟩ := h
        obtain ⟨hlen, hbound⟩ := ih _ _ hrec
        refine ⟨by simp only [List.length_cons] at hlen ⊢; omega, ?_⟩
        intro u hu
        rcases List.mem_cons.mp hu with rfl | hu
        · omega
        · exact hbound u hu
      · rw [Option.map_eq_some'] at h
        obtain ⟨us, hrec, rfl⟩ := h
        obtain ⟨hlen, hbound⟩ := ih _ _ hrec
        refine ⟨by simp only [List.length_cons] at hlen ⊢; omega, ?_⟩
        intro u hu
        rcases List.mem_cons.mp hu with rfl | hu
        · omega
        · exact hbound u hu
      · rw [Option.map_eq_some'] at h
        obtain ⟨us, hrec, rfl⟩ := h
        obtain ⟨hlen, hbound⟩ := ih _ _ hrec
        refine ⟨by simp only [List.length_cons] at hlen ⊢; omega, ?_⟩
        intro u hu
        rcases List.mem_cons.mp hu with rfl | hu
        · omega
        · exact hbound u hu
      · rw [Option.map_eq_some'] at h
        obtain ⟨us, hrec, rfl⟩ := h
        obtain ⟨hlen, hbound⟩ := ih _ _ hrec
        refine ⟨by simp only [List.length_cons] at hlen ⊢; omega, ?_⟩
        have hs1 : 55296 + (b % 8 * 262144 + b1 % 64 * 4096 + b2 % 64 * 64 + b3 % 64 - 65536) /
            1024 < 65536 := by
          omega
        have hs2 : 56320 + (b % 8 * 262144 + b1 % 64 * 4096 + b2 % 64 * 64 + b3 % 64 - 65536) %
            1024 < 65536 := by
          omega
        intro u hu
        simp only [List.mem_cons] at hu
        rcases hu with h1 | h1 | h1
        · omega
        · omega
        · exact hbound u h1

lemma fromBytes_length_le (bytes units : List ℕ) (h : fromBytes bytes = some units) :
    units.length ≤ bytes.length :=
  (utf16Units_facts bytes.length bytes units h).1

lemma fromBytes_lt (bytes units : List ℕ) (h : fromBytes bytes = some units) :
    ∀ u ∈ units, u < 65536 :=
  (utf16Units_facts bytes.length bytes units h).2

lemma length_dropWhile_le {α : Type} (p : α → Bool) (l : List α) :
    (l.dropWhile p).length ≤ l.length := by
  induction l with
  | nil => simp
  | cons x xs ih =>
    rw [List.dropWhile_cons]
    split_ifs
    · exact le_trans ih (by simp)
    · simp

lemma stripLineEnding_length_le (line : List ℕ) :
    (stripLineEnding line).length ≤ line.length := by
  unfold stripLineEnding
  rw [List.length_reverse]
  exact le_trans (length_dropWhile_le _ _) (by rw [List.length_reverse])

lemma foldl_window_filter (g : ℕ → ℕ) (c : ℕ → Bool) :
    ∀ (l : List ℕ) (p : CountProfile),
      l.foldl (fun tg i => if c i then bump tg (g i) else tg) p
        = (l.filter c).foldl (fun tg i => bump tg (g i)) p := by
  intro l
  induction l with
  | nil => intro p; rfl
  | cons x xs ih =>
    intro p
    rw [List.foldl_cons, List.filter_cons]
    by_cases hx : c x = true
    · rw [if_pos hx, if_pos hx, List.foldl_cons]
      exact ih _
    · rw [if_neg hx, if_neg hx]
      exact ih _

lemma totalCount_bump (p : CountProfile) (k : ℕ) : totalCount (bump p k) = totalCount p + 1 := by
  induction p with
  | nil => rfl
  | cons kv rest ih =>
    simp only [bump]
    split_ifs with hk
    · simp only [totalCount, List.map_cons, List.sum_cons]
      omega
    · simp only [totalCount, List.map_cons, List.sum_cons] at ih ⊢
      omega

lemma totalCount_foldl_bump (g : ℕ → ℕ) :
    ∀ (l : List ℕ) (p : CountProfile),
      totalCount (l.foldl (fun tg i => bump tg (g i)) p) = totalCount p + l.length := by
  intro l
  induction l with
  | nil => intro p; simp
  | cons x xs ih =>
    intro p
    rw [List.foldl_cons, ih, totalCount_bump, List.length_cons]
    omega

lemma windowPass_eq (a b c : ℕ) (ha : a < 65536) (hb : b < 65536) (hc : c < 65536) :
    windowPass (wcharTrigramToInt a b c) = (!(a == 0 || b == 0 || c == 0)) := by
  unfold windowPass
  rw [wcharTrigramToInt_eq_add a b c ha hb hc, key_field_lo a b c hb hc,
    key_field_mid a b c hb hc, key_field_hi a b c ha hb hc]
  rw [Bool.eq_iff_iff]
  simp only [Bool.and_eq_true, bne_iff_ne, ne_eq, Bool.not_eq_true', Bool.or_eq_false_iff,
    beq_eq_false_iff_ne]
  omega

lemma extract_unicode_eq (line : List ℕ) (p : CountProfile) (units : List ℕ)
    (hd : fromBytes (stripLineEnding line) = some units) (h3 : 3 ≤ units.length) :
    extractTrigramsFromLine line p =
      ((List.range (units.length - 2)).filter (fun i =>
          !(units.getD i 0 == 0 || units.getD (i + 1) 0 == 0 || units.getD (i + 2) 0 == 0))).foldl
        (fun tg i =>
          bump tg
            (wcharTrigramToInt (units.getD i 0) (units.getD (i + 1) 0) (units.getD (i + 2) 0)))
        p := by
  have hlen : units.length ≤ (stripLineEnding line).length := fromBytes_length_le _ _ hd
  have hline : (stripLineEnding line).length ≤ line.length := stripLineEnding_length_le line
  simp only [extractTrigramsFromLine, hd]
  rw [if_neg (by omega : ¬ line.length < 3), if_neg (by omega : ¬ (stripLineEnding line).length < 3),
    if_neg (by omega : ¬ units.length < 3)]
  rw [foldl_window_filter
    (fun i => wcharTrigramToInt (units.getD i 0) (units.getD (i + 1) 0) (units.getD (i + 2) 0))
    (fun i =>
      windowPass (wcharTrigramToInt (units.getD i 0) (units.getD (i + 1) 0) (units.getD (i + 2) 0)))]
  congr 1
  apply List.filter_congr
  intro i hi
  rw [List.mem_range] at hi
  have h0 : i < units.length := by omega
  have h1 : i + 1 < units.length := by omega
  have h2 : i + 2 < units.length := by omega
  have hu0 : units.getD i 0 < 65536 := by
    rw [List.getD_eq_getElem units 0 h0]
    exact fromBytes_lt _ _ hd _ (List.getElem_mem h0)
  have hu1 : units.getD (i + 1) 0 < 65536 := by
    rw [List.getD_eq_getElem units 0 h1]
    exact fromBytes_lt _ _ hd _ (List.getElem_mem h1)
  have hu2 : units.getD (i + 2) 0 < 65536 := by
    rw [List.getD_eq_getElem units 0 h2]
    exact fromBytes_lt _ _ hd _ (List.getElem_mem h2)
  exact windowPass_eq _ _ _ hu0 hu1 hu2

lemma extract_fallback_eq (line : List ℕ) (p : CountProfile)
    (hd : fromBytes (stripLineEnding line) = none) (h3 : 3 ≤ (stripLineEnding line).length) :
    extractTrigramsFromLine line p =
      ((List.range ((stripLineEnding line).length - 2)).filter (fun i =>
          packBytes ((stripLineEnding line).getD i 0) ((stripLineEnding line).getD (i + 1) 0)
            ((stripLineEnding line).getD (i + 2) 0) != 0)).foldl
        (fun tg i =>
          bump tg
            (packBytes ((stripLineEnding line).getD i 0) ((stripLineEnding line).getD (i + 1) 0)
              ((stripLineEnding line).getD (i + 2) 0)))
        p := by
  have hline : (stripLineEnding line).length ≤ line.length := stripLineEnding_length_le line
  simp only [extractTrigramsFromLine, hd]
  rw [if_neg (by omega : ¬ line.length < 3), if_neg (by omega : ¬ (stripLineEnding line).length < 3),
    if_pos h3]
  rw [foldl_window_filter
    (fun i =>
      packBytes ((stripLineEnding line).getD i 0) ((stripLineEnding line).getD (i + 1) 0)
        ((stripLineEnding line).getD (i + 2) 0))
    (fun i =>
      packBytes ((stripLineEnding line).getD i 0) ((stripLineEnding line).getD (i + 1) 0)
        ((stripLineEnding line).getD (i + 2) 0) != 0)]

/-- C5 counterexample: on the malformed line 97, 0, 98, 255 the decoder
fails, the byte fallback runs, and the window (97, 0, 98) is counted even
though its middle character packs to the zero sentinel (its 16-bit field
is 0), contradicting the claim for the fallback path. -/
theorem fallback_zero_byte_counterexample :
    fromBytes (stripLineEnding [97, 0, 98, 255]) = none ∧
    ((packBytes 97 0 98 >>> 16) &&& 0xFFFF = 0) ∧
    List.lookup (packBytes 97 0 98) (extractTrigramsFromLine [97, 0, 98, 255] []) = some 1 := by
  decide

/-- C5 amended: in the Unicode-decoded path a window is skipped exactly
when one of its 3 characters is the zero sentinel, while in the byte
fallback path a window is skipped only when the whole packed key is zero
(all three bytes zero); a fallback window with some but not all zero
bytes is still counted. -/
theorem extract_zero_sentinel_paths (line : List ℕ) (p : CountProfile) :
    (∀ units, fromBytes (stripLineEnding line) = some units → 3 ≤ units.length →
      extractTrigramsFromLine line p =
        ((List.range (units.length - 2)).filter (fun i =>
            !(units.getD i 0 == 0 || units.getD (i + 1) 0 == 0 ||
              units.getD (i + 2) 0 == 0))).foldl
          (fun tg i =>
            bump tg
              (wcharTrigramToInt (units.getD i 0) (units.getD (i + 1) 0) (units.getD (i + 2) 0)))
          p) ∧
    (fromBytes (stripLineEnding line) = none → 3 ≤ (stripLineEnding line).length →
      extractTrigramsFromLine line p =
        ((List.range ((stripLineEnding line).length - 2)).filter (fun i =>
            packBytes ((stripLineEnding line).getD i 0) ((stripLineEnding line).getD (i + 1) 0)
              ((stripLineEnding line).getD (i + 2) 0) != 0)).foldl
          (fun tg i =>
            bump tg
              (packBytes ((stripLineEnding line).getD i 0) ((stripLineEnding line).getD (i + 1) 0)
                ((stripLineEnding line).getD (i + 2) 0)))
          p) :=
  ⟨fun units hd h3 => extract_unicode_eq line p units hd h3,
   fun hd h3 => extract_fallback_eq line p hd h3⟩

/-- Witness for the amended C5 on the fallback path at the concrete line
97, 0, 98, 255 with the empty profile. -/
theorem extract_zero_sentinel_paths_witness :
    extractTrigramsFromLine [97, 0, 98, 255] [] =
      ((List.range ((stripLineEnding [97, 0, 98, 255]).length - 2)).filter (fun i =>
          packBytes ((stripLineEnding [97, 0, 98, 255]).getD i 0)
            ((stripLineEnding [97, 0, 98, 255]).getD (i + 1) 0)
            ((stripLineEnding [97, 0, 98, 255]).getD (i + 2) 0) != 0)).foldl
        (fun tg i =>
          bump tg
            (packBytes ((stripLineEnding [97, 0, 98, 255]).getD i 0)
              ((stripLineEnding [97, 0, 98, 255]).getD (i + 1) 0)
              ((stripLineEnding [97, 0, 98, 255]).getD (i + 2) 0)))
        [] :=
  (extract_zero_sentinel_paths [97, 0, 98, 255] []).2 (by decide) (by decide)

/-- C4 counterexample: the line 97, 98, 0 decodes to 3 characters after
stripping, so the claim demands exactly 1 window count, but the single
window contains the zero sentinel and is skipped, so 0 counts are
added. -/
theorem extract_count_counterexample :
    fromBytes (stripLineEnding [97, 98, 0]) = some [97, 98, 0] ∧
    totalCount (extractTrigramsFromLine [97, 98, 0] []) = 0 := by
  decide

/-- C4 amended: when the decoded stripped content has n at least 3
characters and none of them is the zero sentinel, extraction adds exactly
n - 2 window counts (summed over all keys); when n is below 3 it adds
nothing. -/
theorem extract_window_count (line : List ℕ) (p : CountProfile) (units : List ℕ)
    (hd : fromBytes (stripLineEnding line) = some units) :
    (3 ≤ units.length → (∀ u ∈ units, u ≠ 0) →
      totalCount (extractTrigramsFromLine line p) = totalCount p + (units.length - 2)) ∧
    (units.length < 3 → extractTrigramsFromLine line p = p) := by
  constructor
  · intro h3 hz
    rw [extract_unicode_eq line p units hd h3]
    have hfil : ((List.range (units.length - 2)).filter (fun i =>
        !(units.getD i 0 == 0 || units.getD (i + 1) 0 == 0 || units.getD (i + 2) 0 == 0)))
        = List.range (units.length - 2) := by
      rw [List.filter_eq_self]
      intro i hi
      rw [List.mem_range] at hi
      have h0 : i < units.length := by omega
      have h1 : i + 1 < units.length := by omega
      have h2 : i + 2 < units.length := by omega
      have hne0 : units.getD i 0 ≠ 0 := by
        rw [List.getD_eq_getElem units 0 h0]
        exact hz _ (List.getElem_mem h0)
      have hne1 : units.getD (i + 1) 0 ≠ 0 := by
        rw [List.getD_eq_getElem units 0 h1]
        exact hz _ (List.getElem_mem h1)
      have hne2 : units.getD (i + 2) 0 ≠ 0 := by
        rw [List.getD_eq_getElem units 0 h2]
        exact hz _ (List.getElem_mem h2)
      simp only [Bool.not_eq_true', Bool.or_eq_false_iff, beq_eq_false_iff_ne]
      exact ⟨⟨hne0, hne1⟩, hne2⟩
    rw [hfil, totalCount_foldl_bump, List.length_range]
  · intro hlt
    simp only [extractTrigramsFromLine, hd]
    by_cases hl1 : line.length < 3
    · rw [if_pos hl1]
    · rw [if_neg hl1]
      by_cases hl2 : (stripLineEnding line).length < 3
      · rw [if_pos hl2]
      · rw [if_neg hl2, if_pos hlt]

/-- Witness for the amended C4: the 4-character sentinel-free line
97, 98, 99, 100 adds exactly 2 counts, and the 2-character line 97, 98
adds nothing. -/
theorem extract_window_count_witness :
    totalCount (extractTrigramsFromLine [97, 98, 99, 100] []) =
      totalCount ([] : CountProfile) + (List.length [97, 98, 99, 100] - 2) ∧
    extractTrigramsFromLine [97, 98] [] = [] :=
  ⟨(extract_window_count [97, 98, 99, 100] [] [97, 98, 99, 100] (by decide)).1
      (by decide) (by decide),
   (extract_window_count [97, 98] [] [97, 98] (by decide)).2 (by decide)⟩

/-- C6: the decode failure inside trigram extraction is recovered by the
byte fallback (the extractor always returns a profile), but the decode
call in getTextFromString has no handler, so the same malformed byte 255
propagates the failure (the exception, modelled as none) to the caller,
contradicting the stated never-propagate policy. -/
theorem decode_failure_propagates :
    getTextFromString [255] = none ∧
    extractTrigramsFromLine [255, 97, 98] [] = [(packBytes 255 97 98, 1)] := by
  decide

/-! Positivity of the raw counts. -/

lemma bump_pos : ∀ (p : CountProfile) (k : ℕ), (∀ kv ∈ p, 1 ≤ kv.2) →
    ∀ kv ∈ bump p k, 1 ≤ kv.2 := by
  intro p
  induction p with
  | nil =>
    intro k _ kv hkv
    simp only [bump, List.mem_singleton] at hkv
    subst hkv
    exact le_refl 1
  | cons kv0 rest ih =>
    intro k hp kv hkv
    simp only [bump] at hkv
    split_ifs at hkv with hk
    · rcases List.mem_cons.mp hkv with rfl | h
      · simp only []
        omega
      · exact hp _ (List.mem_cons_of_mem _ h)
    · rcases List.mem_cons.mp hkv with rfl | h
      · exact hp _ (List.mem_cons_self _ _)
      · exact ih k (fun kv2 h2 => hp _ (List.mem_cons_of_mem _ h2)) _ h

lemma foldl_bump_if_pos (g : ℕ → ℕ) (c : ℕ → Bool) :
    ∀ (l : List ℕ) (p : CountProfile), (∀ kv ∈ p, 1 ≤ kv.2) →
      ∀ kv ∈ l.foldl (fun tg i => if c i then bump tg (g i) else tg) p, 1 ≤ kv.2 := by
  intro l
  induction l with
  | nil => intro p hp; exact hp
  | cons x xs ih =>
    intro p hp
    rw [List.foldl_cons]
    apply ih
    by_cases hc : c x = true
    · rw [if_pos hc]
      exact bump_pos p (g x) hp
    · rw [if_neg hc]
      exact hp

lemma extract_pos (line : List ℕ) (p : CountProfile) (hp : ∀ kv ∈ p, 1 ≤ kv.2) :
    ∀ kv ∈ extractTrigramsFromLine line p, 1 ≤ kv.2 := by
  rcases hfb : fromBytes (stripLineEnding line) with _ | wline
  · simp only [extractTrigramsFromLine, hfb]
    split_ifs
    · exact hp
    · exact hp
    · exact foldl_bump_if_pos _ _ _ _ hp
    · exact hp
  · simp only [extractTrigramsFromLine, hfb]
    split_ifs
    · exact hp
    · exact hp
    · exact hp
    · exact foldl_bump_if_pos _ _ _ _ hp

lemma build_fold_pos : ∀ (text : Text) (p : CountProfile), (∀ kv ∈ p, 1 ≤ kv.2) →
    ∀ kv ∈ text.foldl
      (fun trigrams line =>
        if 3 ≤ line.length then extractTrigramsFromLine line trigrams else trigrams) p,
      1 ≤ kv.2 := by
  intro text
  induction text with
  | nil => intro p hp; exact hp
  | cons line rest ih =>
    intro p hp
    rw [List.foldl_cons]
    apply ih
    by_cases hl : 3 ≤ line.length
    · rw [if_pos hl]
      exact extract_pos line p hp
    · rw [if_neg hl]
      exact hp

/-- C9: every weight stored in the raw profile returned by
buildTrigramProfile is a strictly positive count: keys are only inserted
by incrementing, so no key maps to zero. -/
theorem buildTrigramProfile_weights_pos (text : Text) :
    ∀ kv ∈ buildTrigramProfile text, 1 ≤ kv.2 := by
  unfold buildTrigramProfile
  split_ifs
  · intro kv hkv
    exact absurd hkv (List.not_mem_nil kv)
  · exact build_fold_pos text [] (fun kv hkv => absurd hkv (List.not_mem_nil kv))

/-- Witness for C9 on the one-line text holding 97, 98, 99. -/
theorem buildTrigramProfile_weights_pos_witness :
    (wcharTrigramToInt 97 98 99, 1) ∈ buildTrigramProfile [[97, 98, 99]] ∧
    1 ≤ (wcharTrigramToInt 97 98 99, 1).2 :=
  ⟨by decide, buildTrigramProfile_weights_pos [[97, 98, 99]] _ (by decide)⟩

/-! Facts about the classifier scoring loop. -/

lemma scan_fst (f : LanguageProfile → ℝ) :
    ∀ (l : List LanguageProfile) (m : ℝ) (b : Option String),
      (l.foldl
        (fun acc langProfile =>
          if acc.1 < f langProfile then (f langProfile, some langProfile.languageCode) else acc)
        (m, b)).1 = l.foldl (fun m2 langProfile => max m2 (f langProfile)) m := by
  intro l
  induction l with
  | nil => intro m b; rfl
  | cons x xs ih =>
    intro m b
    rw [List.foldl_cons, List.foldl_cons]
    by_cases hx : m < f x
    · rw [if_pos hx, ih, max_eq_right hx.le]
    · rw [if_neg hx, ih, max_eq_left (not_lt.mp hx)]

lemma scan_no_update (f : LanguageProfile → ℝ) :
    ∀ (l : List LanguageProfile) (m : ℝ) (b : Option String),
      (∀ langProfile ∈ l, ¬ m < f langProfile) →
      l.foldl
        (fun acc langProfile =>
          if acc.1 < f langProfile then (f langProfile, some langProfile.languageCode) else acc)
        (m, b) = (m, b) := by
  intro l
  induction l with
  | nil => intro m b _; rfl
  | cons x xs ih =>
    intro m b hno
    rw [List.foldl_cons, if_neg (hno x (List.mem_cons_self x xs))]
    exact ih m b (fun langProfile hl => hno langProfile (List.mem_cons_of_mem x hl))

lemma scan_snd (f : LanguageProfile → ℝ) (M : ℝ) :
    ∀ (l : List LanguageProfile) (m : ℝ) (b : Option String),
      M ∈ l.map f → (∀ s ∈ l.map f, s ≤ M) → m < M →
      (l.foldl
        (fun acc langProfile =>
          if acc.1 < f langProfile then (f langProfile, some langProfile.languageCode) else acc)
        (m, b)).2 = firstAttaining f M l := by
  intro l
  induction l with
  | nil =>
    intro m b hmem _ _
    exact absurd hmem (List.not_mem_nil M)
  | cons x xs ih =>
    intro m b hmem hub hm
    rw [List.foldl_cons]
    by_cases hx : f x = M
    · rw [if_pos (by rw [hx]; exact hm)]
      rw [scan_no_update f xs (f x) (some x.languageCode) ?hno]
      · simp only [firstAttaining, if_pos hx]
      case hno =>
        intro langProfile hl
        have hle : f langProfile ≤ M := hub _ (List.mem_map_of_mem f (List.mem_cons_of_mem x hl))
        rw [hx]
        exact not_lt.mpr hle
    · have hmem2 : M ∈ xs.map f := by
        simp only [List.map_cons, List.mem_cons] at hmem
        rcases hmem with h | h
        · exact absurd h.symm hx
        · exact h
      have hub2 : ∀ s ∈ xs.map f, s ≤ M := by
        intro s hs
        apply hub
        simp only [List.map_cons, List.mem_cons]
        right
        exact hs
      by_cases hup : m < f x
      · rw [if_pos hup]
        have hxM : f x < M := lt_of_le_of_ne (hub (f x) (by simp)) hx
        rw [ih (f x) (some x.languageCode) hmem2 hub2 hxM]
        simp only [firstAttaining, if_neg hx]
      · rw [if_neg hup]
        rw [ih m b hmem2 hub2 hm]
        simp only [firstAttaining, if_neg hx]

lemma firstAttaining_ne_none (f : LanguageProfile → ℝ) (M : ℝ) :
    ∀ l : List LanguageProfile, M ∈ l.map f → firstAttaining f M l ≠ none := by
  intro l
  induction l with
  | nil =>
    intro hm
    exact absurd hm (List.not_mem_nil M)
  | cons x xs ih =>
    intro hm
    simp only [firstAttaining]
    by_cases hx : f x = M
    · rw [if_pos hx]
      exact Option.some_ne_none _
    · rw [if_neg hx]
      apply ih
      simp only [List.map_cons, List.mem_cons] at hm
      rcases hm with h | h
      · exact absurd h.symm hx
      · exact h

lemma foldl_max_le : ∀ (l : List ℝ) (c : ℝ), (∀ s ∈ l, s ≤ c) → l.foldl max c = c := by
  intro l
  induction l with
  | nil => intro c _; rfl
  | cons x xs ih =>
    intro c hc
    rw [List.foldl_cons, max_eq_left (hc x (List.mem_cons_self x xs))]
    exact ih c (fun s hs => hc s (List.mem_cons_of_mem x hs))

lemma foldl_max_eq_max : ∀ (l : List ℝ) (m M : ℝ), M ∈ l → (∀ s ∈ l, s ≤ M) →
    l.foldl max m = max m M := by
  intro l
  induction l with
  | nil =>
    intro m M hm _
    exact absurd hm (List.not_mem_nil M)
  | cons x xs ih =>
    intro m M hm hub
    rw [List.foldl_cons]
    rcases List.mem_cons.mp hm with rfl | hx
    · by_cases hxs : M ∈ xs
      · rw [ih (max m M) M hxs (fun s hs => hub s (List.mem_cons_of_mem M hs)),
          max_assoc, max_self]
      · rw [foldl_max_le xs (max m M)
          (fun s hs => le_trans (hub s (List.mem_cons_of_mem M hs)) (le_max_right m M))]
    · rw [ih (max m x) M hx (fun s hs => hub s (List.mem_cons_of_mem x hs)), max_assoc,
        max_eq_right (hub x (List.mem_cons_self x xs))]

/-- C1: with non-empty text, a non-empty language collection and a
non-empty built profile, identifyLanguage returns the code of the first
language in collection order attaining the maximum similarity M exactly
when M strictly exceeds the threshold 1/100, and unknown otherwise. -/
theorem identifyLanguage_first_max (text : Text) (languages : List LanguageProfile) (M : ℝ)
    (htext : text ≠ []) (hlang : languages ≠ []) (hbuild : buildTrigramProfile text ≠ [])
    (hmem : M ∈ languages.map (fun langProfile =>
      getCosineSimilarity (normalizeTrigramProfile (toRProfile (buildTrigramProfile text)))
        langProfile.trigramProfile))
    (hub : ∀ s ∈ languages.map (fun langProfile =>
      getCosineSimilarity (normalizeTrigramProfile (toRProfile (buildTrigramProfile text)))
        langProfile.trigramProfile), s ≤ M) :
    identifyLanguage text languages =
      if 1 / 100 < M then
        (firstAttaining
          (fun langProfile =>
            getCosineSimilarity (normalizeTrigramProfile (toRProfile (buildTrigramProfile text)))
              langProfile.trigramProfile)
          M languages).getD ("unknown")
      else "unknown" := by
  simp only [identifyLanguage]
  rw [if_neg (by rw [isEmpty_false_of_ne_nil htext, isEmpty_false_of_ne_nil hlang]; simp)]
  rw [if_neg (by rw [isEmpty_false_of_ne_nil hbuild]; simp)]
  obtain ⟨f, hf⟩ : ∃ f : LanguageProfile → ℝ, f = fun langProfile =>
      getCosineSimilarity (normalizeTrigramProfile (toRProfile (buildTrigramProfile text)))
        langProfile.trigramProfile := ⟨_, rfl⟩
  rw [← hf] at hmem hub ⊢
  have hfst : (bestScan f languages).1 = max (-1) M := by
    unfold bestScan
    rw [scan_fst, ← List.foldl_map]
    exact foldl_max_eq_max _ _ _ hmem hub
  by_cases h01 : 1 / 100 < M
  · have hm1 : (-1 : ℝ) < M := lt_trans (by norm_num) h01
    have hsnd : (bestScan f languages).2 = firstAttaining f M languages := by
      unfold bestScan
      exact scan_snd f M languages (-1) none hmem hub hm1
    have hcond : 1 / 100 < (bestScan f languages).1 := by
      rw [hfst]
      exact lt_max_iff.mpr (Or.inr h01)
    have hnn : (bestScan f languages).2 ≠ none := by
      rw [hsnd]
      exact firstAttaining_ne_none f M languages hmem
    rw [if_pos ⟨hcond, hnn⟩, if_pos h01, hsnd]
  · have hcond : ¬ (1 / 100 < (bestScan f languages).1 ∧ (bestScan f languages).2 ≠ none) := by
      intro hcontra
      rcases hcontra with ⟨hlt, _⟩
      rw [hfst] at hlt
      rcases lt_max_iff.mp hlt with h | h
      · norm_num at h
      · exact h01 h
    rw [if_neg hcond, if_neg h01]

/-- Witness for C1: a text with one sentinel-free 4-character line against
a single language profile with an empty trigram profile scores 0, which
does not exceed the threshold, so the result is unknown. -/
theorem identifyLanguage_first_max_witness :
    identifyLanguage [[97, 98, 99, 100]] [⟨"xx", []⟩] = "unknown" := by
  have hc : getCosineSimilarity
      (normalizeTrigramProfile (toRProfile (buildTrigramProfile [[97, 98, 99, 100]])))
      ([] : RProfile) = 0 := by
    simp [getCosineSimilarity]
  have h := identifyLanguage_first_max [[97, 98, 99, 100]] [⟨"xx", []⟩] 0
    (by decide) (by simp) (by decide)
    (by simp only [List.map_cons, List.map_nil, List.mem_singleton]; exact hc.symm)
    (by
      intro s hs
      simp only [List.map_cons, List.map_nil, List.mem_singleton] at hs
      rw [hs, hc])
  rw [h, if_neg (by norm_num)]
